import Mathlib

/-!
# A verification of the PyVoicing music-theory library

This file gives a shallow embedding of the core value types of the
PyVoicing library — `Chroma` (pitch class), `Interval` (signed semitone
distance), `Pitch` (absolute semitone value) and `Voicing` (a root chroma
plus an ordered pitch list) — together with the operations the
specification talks about: construction, transposition, the CSV
serialisation, set-like addition/removal, key-based lookup (`index`), and
the chord-tone classifier (`~voicing`).

Python integers are modelled as `Int`.  Python's `%` and `//` with the
positive modulus `12` agree with Lean's Euclidean `%` and `/` on `Int`,
so those operators are translated directly.  Python strings are modelled
as `String` (equivalently their character list) and a fallible Python
computation (one that can raise) is modelled with `Option`, `none`
standing for the raised exception.

The definitions follow `src/pyvoicing/chroma.py`, `interval.py`,
`pitch.py` and `voicing.py` of the packaged library (the actively
exported variant, which the specification designates as authoritative
where the legacy top-level variant disagrees).
-/

namespace PyVoicing

/-- The `Chroma`: a pitch class.  Field `offset` is the stored integer
(`chroma.py`, attribute `offset`). -/
structure Chroma where
  offset : Int
deriving DecidableEq

/-- The `Interval`: a signed semitone distance.  Field `distance` is the
stored integer (`interval.py`, attribute `distance`). -/
structure Interval where
  distance : Int
deriving DecidableEq

/-- The `Pitch`: an absolute pitch.  Field `value` is the stored integer
(`pitch.py`, attribute `value`). -/
structure Pitch where
  value : Int
deriving DecidableEq

/-- The `Voicing`: a root chroma plus an ordered pitch list
(`voicing.py`).  The constructor's default root is `None`, so the root
is an `Option`. -/
structure Voicing where
  root : Option Chroma
  pitches : List Pitch
deriving DecidableEq

/-- The `Chroma.__init__` on an `int` argument: `self.offset = value % 12`. -/
def Chroma.ofInt (n : Int) : Chroma := ⟨n % 12⟩

/-- The `Chroma.__init__` on a `Chroma` argument: copy the offset. -/
def Chroma.ofChroma (c : Chroma) : Chroma := ⟨c.offset⟩

/-- The `Interval.__init__` on an `int` argument: `self.distance = value`. -/
def Interval.ofInt (n : Int) : Interval := ⟨n⟩

/-- The `Interval.__init__` on a `Chroma` argument: `self.distance = value.offset`. -/
def Interval.ofChroma (c : Chroma) : Interval := ⟨c.offset⟩

/-- The `Interval.offset` property: `self.distance % 12`. -/
def Interval.offset (i : Interval) : Int := i.distance % 12

/-- The `Interval.octave` property: `self.distance // 12`. -/
def Interval.octave (i : Interval) : Int := i.distance / 12

/-- The `Interval.__add__` with an `int` right operand:
`Interval(self.distance + Interval(other).distance)`. -/
def Interval.addInt (i : Interval) (n : Int) : Interval := ⟨i.distance + (Interval.ofInt n).distance⟩

/-- The `Chroma.__add__` (= `__mul__` = `__rshift__`), transpose upwards:
`Chroma((Interval(value) + self.offset).offset)`. -/
def Chroma.transposeUp (c : Chroma) (i : Interval) : Chroma :=
  Chroma.ofInt ((i.addInt c.offset).offset)

/-- The `Chroma.__truediv__` (= `__lshift__`), transpose downwards:
`Chroma(self.offset - Interval(value).distance)`. -/
def Chroma.transposeDown (c : Chroma) (i : Interval) : Chroma :=
  Chroma.ofInt (c.offset - i.distance)

/-- The `Chroma.__sub__` on a `Chroma` right operand:
`(self.offset - value.offset) % 12`. -/
def Chroma.diff (a b : Chroma) : Int := (a.offset - b.offset) % 12

/-- The `Chroma` invariant stated by the spec: the stored offset lies in
`[0, 12)`. -/
def Chroma.Valid (c : Chroma) : Prop := 0 ≤ c.offset ∧ c.offset < 12

/-- The `Pitch.offset` property: `self.value % 12`. -/
def Pitch.offset (p : Pitch) : Int := p.value % 12

/-- The `Pitch.octave` property: `self.value // 12 - 1`. -/
def Pitch.octave (p : Pitch) : Int := p.value / 12 - 1

/-- The `Pitch.__init__` on a `Pitch` argument: copy the value. -/
def Pitch.ofPitch (p : Pitch) : Pitch := ⟨p.value⟩

/-- The `Pitch.__eq__` on an `Interval` right operand:
`self.offset == other.distance` (`pitch.py`; the legacy variant has the
same comparison). -/
def Pitch.eqInterval (p : Pitch) (i : Interval) : Bool := p.offset == i.distance

/-- The `Pitch.__truediv__` on a non-`Pitch` operand already converted to an
`Interval`: `Pitch(self.value - Interval(interval).distance)`. -/
def Pitch.divInterval (p : Pitch) (i : Interval) : Pitch := ⟨p.value - i.distance⟩

/-- The `Pitch.__mul__` on a non-`Pitch` operand already converted to an
`Interval`: `Pitch(self.value + Interval(interval).distance)`. -/
def Pitch.mulInterval (p : Pitch) (i : Interval) : Pitch := ⟨p.value + i.distance⟩

/-- Modelled from the spec: the lookup table `OFFSET_OF` lives in
`pyvoicing/constants.py`, which is not included in the sources; the spec
(sections 3 and 6) gives its contents.  Pitch-class names map to offsets
0–11 with enharmonic aliases, and interval names map to distances 0–12.
A missing key is a `KeyError` in Python, modelled as `none`. -/
def OFFSET_OF : String → Option Int
  | "C" => some 0
  | "C#" => some 1
  | "Db" => some 1
  | "D" => some 2
  | "D#" => some 3
  | "Eb" => some 3
  | "E" => some 4
  | "F" => some 5
  | "F#" => some 6
  | "Gb" => some 6
  | "G" => some 7
  | "G#" => some 8
  | "Ab" => some 8
  | "A" => some 9
  | "A#" => some 10
  | "Bb" => some 10
  | "B" => some 11
  | "U" => some 0
  | "P1" => some 0
  | "m2" => some 1
  | "M2" => some 2
  | "m3" => some 3
  | "M3" => some 4
  | "P4" => some 5
  | "A4" => some 6
  | "T" => some 6
  | "d5" => some 6
  | "P5" => some 7
  | "m6" => some 8
  | "M6" => some 9
  | "m7" => some 10
  | "D7" => some 10
  | "M7" => some 11
  | "O" => some 12
  | "P8" => some 12
  | _ => none

/-- Modelled from the spec: the lookup table `CHROMA_OF` of
`pyvoicing/constants.py` (not included in the sources), mapping an
offset 0–11 to the canonical pitch-class name; the spec says flats are
the canonical spelling.  A missing key is a `KeyError`, modelled as
`none`. -/
def CHROMA_OF : Int → Option String
  | 0 => some "C"
  | 1 => some "Db"
  | 2 => some "D"
  | 3 => some "Eb"
  | 4 => some "E"
  | 5 => some "F"
  | 6 => some "Gb"
  | 7 => some "G"
  | 8 => some "Ab"
  | 9 => some "A"
  | 10 => some "Bb"
  | 11 => some "B"
  | _ => none

/-! ## Decimal rendering and parsing of integers

Python's `str(n)` and `int(s)` for the CSV format, modelled over the
character list of the string: most-significant digit first, a leading
`-` for negative numbers.  (`int` also accepts forms such as leading
whitespace or a `+` sign that `str` never produces; the model covers the
plain-digit forms, which are the only ones `str` emits.) -/

/-- The decimal digit character for a digit 0–9. -/
def digitChar : Nat → Char
  | 0 => '0'
  | 1 => '1'
  | 2 => '2'
  | 3 => '3'
  | 4 => '4'
  | 5 => '5'
  | 6 => '6'
  | 7 => '7'
  | 8 => '8'
  | 9 => '9'
  | _ => '*'

/-- The numeric value of a digit character. -/
def digitVal (c : Char) : Nat := c.toNat - 48

/-- Digits of `n`, most significant first; the first argument is fuel
(any fuel at least `n` computes all digits of `n`). -/
def natToCharsAux : Nat → Nat → List Char
  | 0, _ => []
  | fuel + 1, n =>
    if n = 0 then [] else natToCharsAux fuel (n / 10) ++ [digitChar (n % 10)]

/-- The `str(n)` for a natural number `n`. -/
def natToChars (n : Nat) : List Char :=
  if n = 0 then ['0'] else natToCharsAux n n

/-- The `str(n)` for an integer `n`. -/
def intToChars (n : Int) : List Char :=
  if n < 0 then '-' :: natToChars (-n).toNat else natToChars n.toNat

/-- The number denoted by a digit string (fold of `digitVal`). -/
def charsToNat (l : List Char) : Nat :=
  l.foldl (fun a c => a * 10 + digitVal c) 0

/-- The `int(s)` on an unsigned string: defined exactly when `s` is a
nonempty all-digit string, otherwise `int` raises `ValueError`. -/
def parseNatChars (l : List Char) : Option Nat :=
  if l ≠ [] ∧ l.all Char.isDigit then some (charsToNat l) else none

/-- The `int(s)` on a possibly sign-prefixed string. -/
def parseIntChars : List Char → Option Int
  | [] => none
  | c :: rest =>
    if c = '-' then (parseNatChars rest).map (fun n => -(n : Int))
    else (parseNatChars (c :: rest)).map (fun n => (n : Int))

/-- The `','.join(parts)` over character lists. -/
def joinComma : List (List Char) → List Char
  | [] => []
  | [x] => x
  | x :: xs => x ++ ',' :: joinComma xs

/-- The `s.split(',')` over character lists. -/
def splitComma : List Char → List (List Char)
  | [] => [[]]
  | c :: rest =>
    if c = ',' then [] :: splitComma rest
    else
      match splitComma rest with
      | [] => [[c]]
      | p :: ps => (c :: p) :: ps

/-- The `Pitch.name` property: `CHROMA_OF[self.offset]`. -/
def Pitch.name (p : Pitch) : Option String := CHROMA_OF p.offset

/-- The `Pitch.__str__`: the f-string of the name followed by the octave. -/
def Pitch.str (p : Pitch) : Option String :=
  p.name.map (fun nm => nm ++ String.mk (intToChars p.octave))

/-! ## Voicing construction and serialisation -/

/-- The `Voicing.__init__(pitches, root)`: `self.pitches = [Pitch(_) for _ in
pitches]` and `self.root = root`, where the root setter stores `None`
unchanged and otherwise `Chroma(value)` (for a `Chroma` argument, a
copy).  The root argument is taken here already in `Chroma` form; the
other accepted forms (`int`, name string, `Pitch`) reach the same setter
through the `Chroma` constructor. -/
def Voicing.init (pitches : List Pitch) (root : Option Chroma) : Voicing :=
  ⟨root.map Chroma.ofChroma, pitches.map Pitch.ofPitch⟩

/-- The character string of the `Voicing.csv` property:
`str(self.root.offset)` when there are no pitches, else the f-string
`root offset, comma-joined pitch values`. -/
def csvChars (r : Chroma) (ps : List Pitch) : List Char :=
  if ps = [] then intToChars r.offset
  else intToChars r.offset ++ ',' :: joinComma (ps.map (fun p => intToChars p.value))

/-- The `Voicing.csv` getter.  On a rootless voicing `self.root.offset`
raises `AttributeError`, modelled as `none`. -/
def Voicing.csv (v : Voicing) : Option String :=
  v.root.map (fun r => String.mk (csvChars r v.pitches))

/-- The `[int(_) for _ in ...]`: parse every part, raising (`none`) when any
single parse raises. -/
def parseAll : List (List Char) → Option (List Int)
  | [] => some []
  | x :: xs =>
    match parseIntChars x, parseAll xs with
    | some v, some vs => some (v :: vs)
    | _, _ => none

/-- The `Voicing.from_csv` / the `csv` setter: split on commas, parse every
part as an integer, take the first as the root offset (through the root
setter, i.e. `Chroma(int)`) and the rest as pitch values. -/
def Voicing.from_csv (s : String) : Option Voicing :=
  match parseAll (splitComma s.data) with
  | none => none
  | some [] => none
  | some (v0 :: rest) => some ⟨some (Chroma.ofInt v0), rest.map (fun n => ⟨n⟩)⟩

/-! ## Voicing set-like operations

Each Python operator builds `ret = copy.deepcopy(self)` (an independent,
structurally equal value — its pitch list, pitch objects and root are
fresh), mutates only `ret`, and returns it; no statement of any operator
body stores into `self`.  The `...M` functions below return the pair
`(state of the receiver when the method exits, return value)`, which
that translation makes `(self, ret)`; a raised exception in the body is
`none` in the second component. -/

/-- The argument of `Voicing.__add__` / `__sub__`: a `Pitch`, a list of
pitches, or a `Voicing`.  (A list element that is not a `Pitch` raises
`TypeError` in Python; the typed embedding cannot express such a list.) -/
inductive PitchesArg where
  | pitch (p : Pitch)
  | list (ps : List Pitch)
  | voicing (w : Voicing)
deriving DecidableEq

/-- The `copy.deepcopy` of a voicing: a fresh structurally equal value. -/
def Voicing.deepcopy (v : Voicing) : Voicing :=
  ⟨v.root.map Chroma.ofChroma, v.pitches.map Pitch.ofPitch⟩

/-- The `value in self`: membership via `Pitch.__eq__`, which on two pitches
compares values. -/
def pitchMem (ps : List Pitch) (p : Pitch) : Bool :=
  ps.any (fun q => q.value == p.value)

/-- The `list.sort()` of a pitch list: stable ascending sort by
`Pitch.__lt__`, i.e. by value. -/
def sortPitches (ps : List Pitch) : List Pitch :=
  ps.mergeSort (fun a b => a.value ≤ b.value)

/-- The `list.remove(p)`: drop the first element equal to `p` (pitch
equality is by value); raises `ValueError` (`none`) when there is none. -/
def removeFirst (ps : List Pitch) (p : Pitch) : Option (List Pitch) :=
  match ps with
  | [] => none
  | q :: rest =>
    if q.value == p.value then some rest else (removeFirst rest p).map (q :: ·)

/-- The loop of `Voicing.__sub__` for a list/`Voicing` argument: for each
`pitch` of the argument, `if pitch in self: ret.pitches.remove(pitch)`.
The membership test reads the original `self.pitches` (`orig`) while the
removal mutates the evolving copy (`cur`). -/
def subLoop (orig cur : List Pitch) : List Pitch → Option (List Pitch)
  | [] => some cur
  | p :: rest =>
    if pitchMem orig p then
      match removeFirst cur p with
      | none => none
      | some cur2 => subLoop orig cur2 rest
    else subLoop orig cur rest

/-- The `Voicing.__add__`: copy, append (for a single `Pitch`, only when not
already present by value; lists and voicings append unconditionally),
then sort ascending. -/
def Voicing.addM (self : Voicing) (value : PitchesArg) : Voicing × Voicing :=
  let ret := self.deepcopy
  let ret :=
    match value with
    | .pitch p =>
      if pitchMem self.pitches p then ret
      else { ret with pitches := ret.pitches ++ [Pitch.ofPitch p] }
    | .list ps => { ret with pitches := ret.pitches ++ ps.map Pitch.ofPitch }
    | .voicing w => { ret with pitches := ret.pitches ++ w.pitches.map Pitch.ofPitch }
  (self, { ret with pitches := sortPitches ret.pitches })

/-- The return value of `Voicing.__add__`. -/
def Voicing.add (v : Voicing) (value : PitchesArg) : Voicing := (v.addM value).2

/-- The `Voicing.__sub__`: copy, then remove each matching pitch guarded by
a membership test against `self`. -/
def Voicing.subM (self : Voicing) (value : PitchesArg) : Voicing × Option Voicing :=
  let ret := self.deepcopy
  let res : Option Voicing :=
    match value with
    | .pitch p =>
      if pitchMem self.pitches p then
        (removeFirst ret.pitches p).map (fun l => { ret with pitches := l })
      else some ret
    | .list ps => (subLoop self.pitches ret.pitches ps).map (fun l => { ret with pitches := l })
    | .voicing w => (subLoop self.pitches ret.pitches w.pitches).map (fun l => { ret with pitches := l })
  (self, res)

/-- The return value of `Voicing.__sub__`. -/
def Voicing.sub (v : Voicing) (value : PitchesArg) : Option Voicing := (v.subM value).2

/-- The `Voicing.__mul__`, transpose upwards: copy, `ret.root += value`
(raising `TypeError` on a rootless voicing, since `None + value` is
unsupported), then `ret[i] *= value` for every index.  The `int` and
name-string argument forms reach the same arithmetic through
`Interval(value)`, so the argument is taken as an `Interval`. -/
def Voicing.mulM (self : Voicing) (i : Interval) : Voicing × Option Voicing :=
  let ret := self.deepcopy
  match ret.root with
  | none => (self, none)
  | some r =>
    (self, some ⟨some (r.transposeUp i), ret.pitches.map (fun p => p.mulInterval i)⟩)

/-- The `Voicing.__rshift__` has the same body as `Voicing.__mul__`. -/
def Voicing.rshiftM (self : Voicing) (i : Interval) : Voicing × Option Voicing :=
  self.mulM i

/-- The `Voicing.__truediv__`, transpose downwards: copy, `ret.root -= value`
(raising on a rootless voicing), then `ret[i] /= value`.  An `Interval`
argument subtracts through `Chroma.__sub__`'s non-`Chroma` branch. -/
def Voicing.divM (self : Voicing) (i : Interval) : Voicing × Option Voicing :=
  let ret := self.deepcopy
  match ret.root with
  | none => (self, none)
  | some r =>
    (self, some ⟨some (r.transposeDown i), ret.pitches.map (fun p => p.divInterval i)⟩)

/-- The `Voicing.__lshift__` has the same body as `Voicing.__truediv__`. -/
def Voicing.lshiftM (self : Voicing) (i : Interval) : Voicing × Option Voicing :=
  self.divM i

/-! ## The chord-tone classifier (`Voicing.__invert__`) -/

/-- The `offsets = [_.offset for _ in (self << self.root)]`: each pitch of
`self << self.root` is `pitch / root`, i.e.
`Pitch(p.value - Interval(root).distance)`, and `.offset` reduces mod
12.  (The shifted voicing's own root is not consulted by the
classifier.) -/
def chordOffsets (r : Chroma) (ps : List Pitch) : List Int :=
  ps.map (fun p => (p.divInterval (Interval.ofChroma r)).offset)

/-- The `has(*values)`: `any(_ in offsets for _ in values)`. -/
def has (offsets values : List Int) : Bool :=
  values.any (fun x => offsets.contains x)

/-- The `root = self[0] / offsets[0]` — the functional root reference pitch
used for the `p - root > 12` octave tests (its `.value`). -/
def rootRef (r : Chroma) (ps : List Pitch) : Int :=
  match ps with
  | [] => 0
  | p0 :: _ => (p0.divInterval (Interval.ofInt ((chordOffsets r ps).headD 0))).value

/-- One arm of the classifier's `match offsets[i]` dispatch
(`voicing.py`, `__invert__`).  Python's `match` with no matching case
appends nothing, hence the `Option`: `none` means no tag is produced. -/
def classifyTone (offsets : List Int) (rootVal : Int) (p : Pitch) (off : Int) :
    Option String :=
  if off = 0 then some "1"
  else if off = 1 then some "b9"
  else if off = 2 then
    some (if p.value - rootVal > 12 then
            (if has offsets [10, 11] then "9" else "add9")
          else
            (if has offsets [3, 4] then "add2" else "sus2"))
  else if off = 3 then some (if has offsets [4] then "#9" else "min3")
  else if off = 4 then some "maj3"
  else if off = 5 then
    some (if p.value - rootVal > 12 then
            (if has offsets [10, 11] then "11" else "add11")
          else
            (if has offsets [3, 4] then "add4" else "sus4"))
  else if off = 6 then
    some (if has offsets [4, 7, 9] then "#11"
          else if has offsets [3, 5] then "b5"
          else if p.value - rootVal > 12 then "#11" else "b5")
  else if off = 7 then some "5"
  else if off = 8 then
    some (if has offsets [1, 3, 5, 6, 7, 9, 10] then "b13" else "#5")
  else if off = 9 then
    some (if p.value - rootVal > 12 then "13"
          else if ([0, 3, 6].all (fun x => offsets.contains x)) && !(has offsets [10, 11]) then "dim7"
          else "6")
  else if off = 10 then some (if has offsets [4] then "dom7" else "min7")
  else if off = 11 then some "maj7"
  else none

/-- The classifier's main loop over `enumerate(self)` paired with
`offsets`, collecting the appended tags. -/
def chordTones (r : Chroma) (ps : List Pitch) : List String :=
  (ps.zip (chordOffsets r ps)).filterMap
    (fun pe => classifyTone (chordOffsets r ps) (rootRef r ps) pe.1 pe.2)

/-- The `Voicing.__invert__`: empty pitch list returns `[]` at once;
otherwise `self << self.root` raises `TypeError` (`none`) when the root
is `None`, else the loop above runs. -/
def Voicing.inv (v : Voicing) : Option (List String) :=
  if v.pitches.isEmpty then some []
  else v.root.map (fun r => chordTones r v.pitches)

/-! ## Key lookup (`Voicing.index`) -/

/-- A key accepted by `Voicing.index`: an `int`, a string, a `Pitch` or a
`Chroma`. -/
inductive VKey where
  | int (n : Int)
  | str (s : String)
  | pitch (p : Pitch)
  | chroma (c : Chroma)
deriving DecidableEq

/-- The `Pitch.__eq__(element, key)` as used by `list.index` /
`in` on `self.pitches` for the key forms that reach it (a string key is
converted to a `Chroma` before the lookup, so no string case arises). -/
def keyEqPitch (key : VKey) (p : Pitch) : Bool :=
  match key with
  | .int n => p.value == n
  | .pitch q => p.value == q.value
  | .chroma c => p.offset == c.offset
  | .str _ => false

/-- The `try: return l.index(key) except ValueError: return -1`: the index
of the first element satisfying `eq`, with sentinel `-1`. -/
def pyIndexSent (eq : α → Bool) : List α → Int
  | [] => -1
  | x :: rest =>
    if eq x then 0
    else
      let r := pyIndexSent eq rest
      if r = -1 then -1 else r + 1

/-- The `Voicing.index(key)` (`voicing.py`): a string key containing a digit
is looked up in `~self` (the chord-tone tag list) guarded by `in`; any
other string key is converted to `Chroma(key)` (a `KeyError`, `none`,
when the name is unknown); then `self.pitches.index(key)` with the
`ValueError` caught as `-1`. -/
def Voicing.index (v : Voicing) (key : VKey) : Option Int :=
  match key with
  | .str s =>
    if s.data.any Char.isDigit then
      match v.inv with
      | none => none
      | some tags => if s ∈ tags then some (pyIndexSent (fun t => t == s) tags) else some (-1)
    else
      match OFFSET_OF s with
      | none => none
      | some off => some (pyIndexSent (keyEqPitch (.chroma ⟨off⟩)) v.pitches)
  | k => some (pyIndexSent (keyEqPitch k) v.pitches)

/-! ## Helper lemmas -/

/-- Copying every pitch of a list is the identity on the list. -/
theorem map_ofPitch (ps : List Pitch) : ps.map Pitch.ofPitch = ps := by
  induction ps with
  | nil => rfl
  | cons p t ih =>
    simp only [List.map_cons, ih]
    rfl

/-- The `sortPitches` always yields a list that is pairwise ascending by
value. -/
theorem sortPitches_pairwise (l : List Pitch) :
    List.Pairwise (fun p q : Pitch => p.value ≤ q.value) (sortPitches l) := by
  unfold sortPitches
  refine List.Pairwise.imp ?_ (List.sorted_mergeSort ?_ ?_ l)
  · intro a b hab
    simpa using hab
  · intro a b c hab hbc
    simp only [decide_eq_true_eq] at *
    omega
  · intro a b
    simp only [Bool.or_eq_true, decide_eq_true_eq]
    omega

/-- The pitch list of any `Voicing.add` result is sorted ascending. -/
theorem add_pitches_sorted (v : Voicing) (a : PitchesArg) :
    List.Pairwise (fun p q : Pitch => p.value ≤ q.value) (v.add a).pitches := by
  cases a <;> exact sortPitches_pairwise _

/-- Zipping a list with its own image under `f` pairs every element with
its image. -/
theorem zip_self_map (f : α → β) (l : List α) :
    l.zip (l.map f) = l.map (fun a => (a, f a)) := by
  induction l with
  | nil => rfl
  | cons a t ih => simp [List.zip_cons_cons, ih]

/-- The `filterMap` by a function that succeeds on every element of the list
is a `map`. -/
theorem filterMap_eq_map_getD (F : α → Option β) (d : β) (l : List α)
    (h : ∀ a ∈ l, (F a).isSome) : l.filterMap F = l.map (fun a => (F a).getD d) := by
  induction l with
  | nil => rfl
  | cons a t ih =>
    obtain ⟨b, hb⟩ := Option.isSome_iff_exists.mp (h a (by simp))
    simp only [List.filterMap_cons, List.map_cons, hb, Option.getD_some]
    exact congrArg _ (ih (fun x hx => h x (by simp [hx])))

/-- The classifier's dispatch produces a tag for every offset in
`[0, 12)` — the range every mod-12 offset lies in. -/
theorem classifyTone_isSome (offsets : List Int) (rootVal : Int) (p : Pitch)
    (off : Int) (h0 : 0 ≤ off) (h1 : off < 12) :
    (classifyTone offsets rootVal p off).isSome := by
  interval_cases off <;> simp [classifyTone]

/-- The classifier's loop, rewritten as one tag per input pitch. -/
theorem chordTones_eq_map (r : Chroma) (ps : List Pitch) :
    chordTones r ps = ps.map (fun p =>
      (classifyTone (chordOffsets r ps) (rootRef r ps) p
        ((p.divInterval (Interval.ofChroma r)).offset)).getD "") := by
  have hz := zip_self_map (fun p : Pitch => (p.divInterval (Interval.ofChroma r)).offset) ps
  unfold chordTones
  rw [show chordOffsets r ps = ps.map
        (fun p : Pitch => (p.divInterval (Interval.ofChroma r)).offset) from rfl, hz,
      List.filterMap_map]
  refine filterMap_eq_map_getD _ _ _ ?_
  intro a _
  refine classifyTone_isSome _ _ _ _ ?_ ?_ <;>
    simp [Pitch.divInterval, Pitch.offset] <;> omega

/-- A digit below 10 renders to a character that reads back as itself. -/
theorem digitVal_digitChar (d : Nat) (h : d < 10) : digitVal (digitChar d) = d := by
  interval_cases d <;> decide

/-- Digit characters are decimal digits. -/
theorem digitChar_isDigit (d : Nat) (h : d < 10) : (digitChar d).isDigit = true := by
  interval_cases d <;> decide

/-- No digit character is a comma. -/
theorem digitChar_ne_comma (d : Nat) : digitChar d ≠ ',' := by
  unfold digitChar
  split <;> decide

/-- Every character produced by `natToCharsAux` is a digit and not a
comma. -/
theorem natToCharsAux_digits (fuel : Nat) :
    ∀ n, ∀ c ∈ natToCharsAux fuel n, c.isDigit = true ∧ c ≠ ',' := by
  induction fuel with
  | zero => intro n c hc; simp [natToCharsAux] at hc
  | succ f ih =>
    intro n c hc
    unfold natToCharsAux at hc
    by_cases hn : n = 0
    · simp [hn] at hc
    · rw [if_neg hn] at hc
      rcases List.mem_append.mp hc with hm | hm
      · exact ih _ c hm
      · have : c = digitChar (n % 10) := by simpa using hm
        subst this
        exact ⟨digitChar_isDigit _ (Nat.mod_lt _ (by norm_num)),
               digitChar_ne_comma _⟩

/-- Folding the digit values over `natToCharsAux fuel n` (with enough
fuel) recovers `n`. -/
theorem foldl_natToCharsAux (fuel : Nat) :
    ∀ n a, n ≤ fuel →
      List.foldl (fun x c => x * 10 + digitVal c) a (natToCharsAux fuel n)
        = a * 10 ^ (natToCharsAux fuel n).length + n := by
  induction fuel with
  | zero =>
    intro n a h
    interval_cases n
    simp [natToCharsAux]
  | succ f ih =>
    intro n a h
    by_cases hn : n = 0
    · subst hn; simp [natToCharsAux]
    · unfold natToCharsAux
      rw [if_neg hn, List.foldl_append, List.length_append]
      have hle : n / 10 ≤ f := by
        have := Nat.div_lt_self (Nat.pos_of_ne_zero hn) (by norm_num : 1 < 10)
        omega
      rw [ih _ a hle]
      simp only [List.foldl_cons, List.foldl_nil, List.length_cons,
        List.length_nil, Nat.zero_add]
      rw [digitVal_digitChar _ (Nat.mod_lt _ (by norm_num)), pow_succ, ← mul_assoc]
      have hgen : ∀ t : Nat, (t + n / 10) * 10 + n % 10 = t * 10 + n := by
        intro t; omega
      exact hgen _

/-- The `str(n)` renders a nonempty string. -/
theorem natToChars_ne_nil (n : Nat) : natToChars n ≠ [] := by
  unfold natToChars
  by_cases hn : n = 0
  · simp [hn]
  · rw [if_neg hn]
    cases n with
    | zero => exact absurd rfl hn
    | succ m =>
      unfold natToCharsAux
      simp

/-- The `str(n)` for a natural number contains only digits. -/
theorem natToChars_all_digit (n : Nat) : (natToChars n).all Char.isDigit = true := by
  unfold natToChars
  by_cases hn : n = 0
  · simp [hn]
  · rw [if_neg hn]
    rw [List.all_eq_true]
    intro c hc
    exact (natToCharsAux_digits n n c hc).1

/-- The `str(n)` for an integer contains no comma. -/
theorem comma_not_mem_intToChars (k : Int) : ',' ∉ intToChars k := by
  have hnat : ∀ m : Nat, ',' ∉ natToChars m := by
    intro m hm
    unfold natToChars at hm
    by_cases hz : m = 0
    · simp [hz] at hm
    · rw [if_neg hz] at hm
      exact (natToCharsAux_digits m m ',' hm).2 rfl
  unfold intToChars
  by_cases hk : k < 0
  · rw [if_pos hk]
    intro hm
    rcases List.mem_cons.mp hm with hm | hm
    · exact absurd hm.symm (by decide)
    · exact hnat _ hm
  · rw [if_neg hk]
    exact hnat _

/-- Reading back `str(n)` gives `n`. -/
theorem charsToNat_natToChars (n : Nat) : charsToNat (natToChars n) = n := by
  by_cases hn : n = 0
  · subst hn; decide
  · unfold charsToNat natToChars
    rw [if_neg hn, foldl_natToCharsAux n n 0 le_rfl]
    simp

/-- The `int(str(n))` is `n` for a natural number. -/
theorem parseNat_natToChars (n : Nat) : parseNatChars (natToChars n) = some n := by
  unfold parseNatChars
  rw [if_pos ⟨natToChars_ne_nil n, natToChars_all_digit n⟩]
  rw [charsToNat_natToChars]

/-- A digit character is not the minus sign. -/
theorem isDigit_ne_minus (c : Char) (h : c.isDigit = true) : c ≠ '-' := by
  intro hc
  subst hc
  exact absurd h (by decide)

/-- The `int(str(k))` is `k` for any integer. -/
theorem parseInt_intToChars (k : Int) : parseIntChars (intToChars k) = some k := by
  unfold intToChars
  by_cases hk : k < 0
  · rw [if_pos hk]
    show parseIntChars ('-' :: natToChars (-k).toNat) = some k
    simp only [parseIntChars, reduceIte, parseNat_natToChars]
    simp [Int.toNat_of_nonneg (show (0 : Int) <= -k by omega)]
  · rw [if_neg hk]
    cases hc : natToChars k.toNat with
    | nil => exact absurd hc (natToChars_ne_nil _)
    | cons c rest =>
      have hdig : c.isDigit = true := by
        have := natToChars_all_digit k.toNat
        rw [hc, List.all_cons, Bool.and_eq_true] at this
        exact this.1
      simp only [parseIntChars]
      rw [if_neg (isDigit_ne_minus c hdig), ← hc, parseNat_natToChars]
      simp [Int.toNat_of_nonneg (show (0 : Int) <= k by omega)]

/-- Splitting a comma-free string gives the single part back. -/
theorem splitComma_no_comma (l : List Char) (h : ',' ∉ l) : splitComma l = [l] := by
  induction l with
  | nil => rfl
  | cons c rest ih =>
    have hc : ¬c = ',' := by
      intro hcc; exact h (by simp [hcc])
    simp [splitComma, hc, ih (fun hm => h (by simp [hm]))]

/-- Splitting past a comma-free prefix peels it off. -/
theorem splitComma_append (x t : List Char) (h : ',' ∉ x) :
    splitComma (x ++ ',' :: t) = x :: splitComma t := by
  induction x with
  | nil => simp [splitComma]
  | cons c rest ih =>
    have hc : ¬c = ',' := by
      intro hcc; exact h (by simp [hcc])
    simp [splitComma, hc, ih (fun hm => h (by simp [hm]))]

/-- The `split` undoes `join` on a nonempty list of comma-free parts. -/
theorem splitComma_joinComma (parts : List (List Char)) (hne : parts ≠ [])
    (h : ∀ p ∈ parts, ',' ∉ p) : splitComma (joinComma parts) = parts := by
  induction parts with
  | nil => exact absurd rfl hne
  | cons x xs ih =>
    cases xs with
    | nil => simp [joinComma, splitComma_no_comma x (h x (by simp))]
    | cons y ys =>
      rw [show joinComma (x :: y :: ys) = x ++ ',' :: joinComma (y :: ys) from rfl]
      rw [splitComma_append _ _ (h x (by simp))]
      rw [ih (by simp) (fun p hp => h p (by simp [hp]))]

/-- Parsing renderings of a list of integers succeeds and recovers the
list. -/
theorem parseAll_map_intToChars (l : List Int) :
    parseAll (l.map intToChars) = some l := by
  induction l with
  | nil => rfl
  | cons a t ih => simp [parseAll, parseInt_intToChars, ih]

/-- What `index` computes on a pitch list: `n` is the first index whose
element satisfies `eq`, or the sentinel `-1` when no element does. -/
def FirstIndexSpec (eq : α → Bool) (l : List α) (n : Int) : Prop :=
  (n = -1 ∧ ∀ x ∈ l, eq x = false) ∨
  (∃ k : Nat, n = (k : Int) ∧ (∃ x, l[k]? = some x ∧ eq x = true) ∧
    ∀ y ∈ l.take k, eq y = false)

/-- The `pyIndexSent` meets `FirstIndexSpec`. -/
theorem pyIndexSent_spec (eq : α → Bool) (l : List α) :
    FirstIndexSpec eq l (pyIndexSent eq l) := by
  induction l with
  | nil => exact Or.inl ⟨rfl, by simp⟩
  | cons a t ih =>
    unfold pyIndexSent
    by_cases ha : eq a
    · rw [if_pos ha]
      exact Or.inr ⟨0, rfl, ⟨a, by simp, ha⟩, by simp⟩
    · rw [if_neg ha]
      have ha' : eq a = false := by
        revert ha; cases eq a <;> simp
      rcases ih with ⟨hn, hall⟩ | ⟨k, hk, ⟨x, hx, hex⟩, hpre⟩
      · rw [hn, if_pos rfl]
        refine Or.inl ⟨rfl, ?_⟩
        intro y hy
        rcases List.mem_cons.mp hy with hy | hy
        · subst hy; exact ha'
        · exact hall y hy
      · rw [hk, if_neg (by omega)]
        refine Or.inr ⟨k + 1, by push_cast; ring, ⟨x, by simpa using hx, hex⟩, ?_⟩
        intro y hy
        rw [List.take_succ_cons] at hy
        rcases List.mem_cons.mp hy with hy | hy
        · subst hy; exact ha'
        · exact hpre y hy

/-! ## The claims -/

/-- C4: for every Chroma `c` (satisfying the mod-12 invariant all
constructed chromas satisfy) and every Interval `i` of any signed
distance, transposing up by `i` and then down by `i` returns a Chroma
equal to `c`: `(c + i) / i == c`. -/
theorem chroma_transpose_roundtrip (c : Chroma) (i : Interval) (h : c.Valid) :
    (c.transposeUp i).transposeDown i = c := by
  obtain ⟨h0, h1⟩ := h
  cases c with
  | mk o =>
    simp only [Chroma.transposeUp, Chroma.transposeDown, Chroma.ofInt,
      Interval.addInt, Interval.offset, Interval.ofInt, Chroma.mk.injEq] at *
    omega

/-- Witness for C4 at `c = ⟨5⟩`, `i = ⟨27⟩`. -/
theorem chroma_transpose_roundtrip_witness :
    (Chroma.mk 5).Valid ∧ ((Chroma.mk 5).transposeUp ⟨27⟩).transposeDown ⟨27⟩ = ⟨5⟩ :=
  ⟨⟨by decide, by decide⟩, chroma_transpose_roundtrip ⟨5⟩ ⟨27⟩ ⟨by decide, by decide⟩⟩

/-- C8: integer construction stores `n % 12` (hence
`Chroma(n) == Chroma(n + 12)`), and every Chroma-producing operation —
transpose up, transpose down, copy construction — yields an offset in
`[0, 12)`, as does the Chroma-to-Chroma difference. -/
theorem chroma_offset_invariant (n : Int) (i : Interval) (c d : Chroma)
    (hc : c.Valid) :
    (Chroma.ofInt n).offset = n % 12 ∧
    (0 ≤ (Chroma.ofInt n).offset ∧ (Chroma.ofInt n).offset < 12) ∧
    Chroma.ofInt n = Chroma.ofInt (n + 12) ∧
    (0 ≤ (c.transposeUp i).offset ∧ (c.transposeUp i).offset < 12) ∧
    (0 ≤ (c.transposeDown i).offset ∧ (c.transposeDown i).offset < 12) ∧
    (Chroma.ofChroma c).Valid ∧
    (0 ≤ c.diff d ∧ c.diff d < 12) := by
  obtain ⟨h0, h1⟩ := hc
  cases c with
  | mk o =>
    simp [Chroma.ofInt, Chroma.ofChroma, Chroma.transposeUp, Chroma.transposeDown,
      Chroma.diff, Chroma.Valid, Interval.addInt, Interval.offset, Interval.ofInt,
      Chroma.mk.injEq] at *
    omega

/-- Witness for C8 at `n = 13`, `i = ⟨-5⟩`, `c = ⟨3⟩`, `d = ⟨7⟩`. -/
theorem chroma_offset_invariant_witness :
    (Chroma.mk 3).Valid ∧
    ((Chroma.ofInt 13).offset = 13 % 12 ∧
     (0 ≤ (Chroma.ofInt 13).offset ∧ (Chroma.ofInt 13).offset < 12) ∧
     Chroma.ofInt 13 = Chroma.ofInt (13 + 12) ∧
     (0 ≤ ((⟨3⟩ : Chroma).transposeUp ⟨-5⟩).offset ∧
        ((⟨3⟩ : Chroma).transposeUp ⟨-5⟩).offset < 12) ∧
     (0 ≤ ((⟨3⟩ : Chroma).transposeDown ⟨-5⟩).offset ∧
        ((⟨3⟩ : Chroma).transposeDown ⟨-5⟩).offset < 12) ∧
     (Chroma.ofChroma ⟨3⟩).Valid ∧
     (0 ≤ Chroma.diff ⟨3⟩ ⟨7⟩ ∧ Chroma.diff ⟨3⟩ ⟨7⟩ < 12)) :=
  ⟨⟨by decide, by decide⟩,
   chroma_offset_invariant 13 ⟨-5⟩ ⟨3⟩ ⟨7⟩ ⟨by decide, by decide⟩⟩

/-- C9 counterexample: `Pitch(60)` (offset 0) and `Interval(12)`
(offset 0, octave 1) have equal offsets, yet `p == i` is false — the
comparison uses the interval's full distance, so the octave component is
not ignored. -/
theorem pitch_eq_interval_cex :
    (Pitch.mk 60).offset = (Interval.mk 12).offset ∧
    Pitch.eqInterval ⟨60⟩ ⟨12⟩ = false := by
  constructor <;> decide

/-- C9 amended: `p == i` holds iff `p`'s offset equals `i`'s full signed
distance — equivalently, iff the offsets match and `i`'s octave
component is zero. -/
theorem pitch_eq_interval_amended (p : Pitch) (i : Interval) :
    Pitch.eqInterval p i = true ↔ (p.offset = i.offset ∧ i.octave = 0) := by
  simp only [Pitch.eqInterval, Pitch.offset, Interval.offset, Interval.octave,
    beq_iff_eq]
  omega

/-- C10: constructing a Voicing from a pitch list stores copies of the
pitches in exactly the given order (no sorting, no deduplication) — in
particular a voicing built from an unsorted list with a duplicate keeps
it verbatim — while the add operation does re-sort ascending. -/
theorem voicing_init_keeps_order (ps : List Pitch) (root : Option Chroma) :
    (Voicing.init ps root).pitches = ps ∧
    (Voicing.init [⟨67⟩, ⟨60⟩, ⟨60⟩] none).pitches = [⟨67⟩, ⟨60⟩, ⟨60⟩] ∧
    (∀ (v : Voicing) (a : PitchesArg),
      List.Pairwise (fun p q : Pitch => p.value ≤ q.value) (v.add a).pitches) :=
  ⟨map_ofPitch ps, by decide, add_pitches_sorted⟩

/-- C7: each operator-style transform (`+`, `-`, `*`, `>>`, `/`, `<<`)
builds its result on a deep copy; the receiver's state on exit — root
and pitch sequence — is its state on entry, on every path (including the
raising ones). -/
theorem voicing_ops_preserve_receiver (v : Voicing) (a : PitchesArg) (i : Interval) :
    (v.addM a).1 = v ∧ (v.subM a).1 = v ∧ (v.mulM i).1 = v ∧
    (v.rshiftM i).1 = v ∧ (v.divM i).1 = v ∧ (v.lshiftM i).1 = v := by
  obtain ⟨root, ps⟩ := v
  refine ⟨rfl, rfl, ?_, ?_, ?_, ?_⟩ <;> cases root <;> rfl

/-- C1: every pitch whose offset from the root is 10 is tagged `dom7`
when offset 4 is present anywhere in the voicing's offset set and `min7`
otherwise; and `~Voicing(root=C, pitches=[C4, E4, G4, Bb4])` (root
offset 0, values 60, 64, 67, 70) returns exactly
`["1", "maj3", "5", "dom7"]`. -/
theorem dom7_min7_rule :
    (∀ (r : Chroma) (ps : List Pitch) (i : Nat),
        (chordOffsets r ps)[i]? = some 10 →
        (chordTones r ps)[i]? =
          some (if 4 ∈ chordOffsets r ps then "dom7" else "min7")) ∧
    Voicing.inv ⟨some ⟨0⟩, [⟨60⟩, ⟨64⟩, ⟨67⟩, ⟨70⟩]⟩ =
      some ["1", "maj3", "5", "dom7"] := by
  constructor
  · intro r ps i h
    rw [chordTones_eq_map, List.getElem?_map]
    rw [show chordOffsets r ps = ps.map
          (fun p : Pitch => (p.divInterval (Interval.ofChroma r)).offset) from rfl,
        List.getElem?_map] at h
    cases hp : ps[i]? with
    | none => rw [hp] at h; simp at h
    | some p =>
      rw [hp] at h
      simp only [Option.map_some', Option.some.injEq] at h
      simp only [Option.map_some', h, Option.some.injEq]
      norm_num [classifyTone]
      by_cases h4 : (4 : Int) ∈ chordOffsets r ps <;>
        simp [h4, has, List.elem_iff]
  · decide

/-- Witness for C1 at the dominant-seventh voicing, index 3. -/
theorem dom7_min7_rule_witness :
    (chordOffsets ⟨0⟩ [⟨60⟩, ⟨64⟩, ⟨67⟩, ⟨70⟩])[3]? = some 10 ∧
    (chordTones ⟨0⟩ [⟨60⟩, ⟨64⟩, ⟨67⟩, ⟨70⟩])[3]? =
      some (if 4 ∈ chordOffsets ⟨0⟩ [⟨60⟩, ⟨64⟩, ⟨67⟩, ⟨70⟩] then "dom7" else "min7") :=
  ⟨by decide, dom7_min7_rule.1 ⟨0⟩ [⟨60⟩, ⟨64⟩, ⟨67⟩, ⟨70⟩] 3 (by decide)⟩

/-- C2 counterexample: on a rootless voicing with a pitch, `~voicing`
raises `TypeError` (`self << self.root` evaluates `None - None`), so no
tag list is produced at all. -/
theorem chord_tones_rootless_cex :
    Voicing.inv ⟨none, [⟨60⟩]⟩ = none := by decide

/-- C2 amended: for every voicing that has a root, chord-tone
classification produces exactly one tag per input pitch in pitch order
(result length equals the voicing length), and the empty voicing yields
the empty list. -/
theorem chord_tones_one_per_pitch (v : Voicing) (r : Chroma)
    (h : v.root = some r) :
    ∃ ts, v.inv = some ts ∧ ts.length = v.pitches.length ∧
      (v.pitches = [] → ts = []) := by
  unfold Voicing.inv
  rw [h]
  by_cases he : v.pitches.isEmpty
  · refine ⟨[], by simp [he], ?_, fun _ => rfl⟩
    rw [List.isEmpty_iff] at he
    simp [he]
  · refine ⟨chordTones r v.pitches, by simp [he], ?_, ?_⟩
    · rw [chordTones_eq_map, List.length_map]
    · intro hnil
      rw [List.isEmpty_iff] at he
      exact absurd hnil he

/-- Witness for C2 at the voicing with root C and single pitch C4. -/
theorem chord_tones_one_per_pitch_witness :
    ∃ ts, Voicing.inv ⟨some ⟨0⟩, [⟨60⟩]⟩ = some ts ∧
      ts.length = (Voicing.mk (some ⟨0⟩) [⟨60⟩]).pitches.length ∧
      ((Voicing.mk (some ⟨0⟩) [⟨60⟩]).pitches = [] → ts = []) :=
  chord_tones_one_per_pitch ⟨some ⟨0⟩, [⟨60⟩]⟩ ⟨0⟩ rfl

/-- C3: for every Voicing that has a root (with the in-range offset
every constructed chroma has), parsing the CSV string produced from it
yields a voicing with the same root and the same pitch values in the
same order, and an empty pitch list serialises as just the root offset,
with no comma in the string. -/
theorem csv_roundtrip (v : Voicing) (r : Chroma) (h : v.root = some r)
    (hr : r.Valid) :
    (∃ s, v.csv = some s ∧ Voicing.from_csv s = some v) ∧
    (v.pitches = [] → v.csv = some (String.mk (intToChars r.offset)) ∧
      ',' ∉ intToChars r.offset) := by
  obtain ⟨hr0, hr1⟩ := hr
  have hofInt : Chroma.ofInt r.offset = r := by
    cases r with
    | mk o =>
      simp only [Chroma.ofInt, Chroma.mk.injEq]
      simp only [Chroma.Valid] at hr0 hr1
      omega
  obtain ⟨vr, vps⟩ := v
  simp only [Voicing.mk.injEq] at h ⊢
  subst h
  constructor
  · refine ⟨String.mk (csvChars r vps), rfl, ?_⟩
    unfold Voicing.from_csv csvChars
    by_cases hnil : vps = []
    · rw [if_pos hnil]
      show (match parseAll (splitComma (intToChars r.offset)) with
        | none => none
        | some [] => none
        | some (v0 :: rest) =>
            some (Voicing.mk (some (Chroma.ofInt v0)) (rest.map (fun n => Pitch.mk n)))) = _
      rw [splitComma_no_comma _ (comma_not_mem_intToChars _)]
      rw [show [intToChars r.offset] = [r.offset].map intToChars from rfl,
          parseAll_map_intToChars]
      simp [hofInt, hnil]
    · rw [if_neg hnil]
      show (match parseAll (splitComma (intToChars r.offset ++ ',' ::
              joinComma (vps.map (fun p => intToChars p.value)))) with
        | none => none
        | some [] => none
        | some (v0 :: rest) =>
            some (Voicing.mk (some (Chroma.ofInt v0)) (rest.map (fun n => Pitch.mk n)))) = _
      rw [splitComma_append _ _ (comma_not_mem_intToChars _)]
      rw [show vps.map (fun p => intToChars p.value)
            = (vps.map Pitch.value).map intToChars by rw [List.map_map]; rfl]
      rw [splitComma_joinComma _ (by simpa using hnil)
            (by intro p hp
                rcases List.mem_map.mp hp with ⟨n, _, hn⟩
                rw [← hn]
                exact comma_not_mem_intToChars n)]
      rw [show intToChars r.offset :: (vps.map Pitch.value).map intToChars
            = (r.offset :: vps.map Pitch.value).map intToChars from rfl]
      rw [parseAll_map_intToChars]
      simp only [hofInt, List.map_map, Option.some.injEq, Voicing.mk.injEq,
        true_and]
      exact map_ofPitch vps
  · intro hnil
    subst hnil
    exact ⟨rfl, comma_not_mem_intToChars _⟩

/-- Witness for C3 at the voicing with root offset 0 and pitch 60. -/
theorem csv_roundtrip_witness :
    (Voicing.mk (some ⟨0⟩) [⟨60⟩]).root = some ⟨0⟩ ∧ (Chroma.mk 0).Valid ∧
    ((∃ s, (Voicing.mk (some ⟨0⟩) [⟨60⟩]).csv = some s ∧
        Voicing.from_csv s = some ⟨some ⟨0⟩, [⟨60⟩]⟩) ∧
     ((Voicing.mk (some ⟨0⟩) [⟨60⟩]).pitches = [] →
        (Voicing.mk (some ⟨0⟩) [⟨60⟩]).csv = some (String.mk (intToChars (Chroma.mk 0).offset)) ∧
        ',' ∉ intToChars (Chroma.mk 0).offset)) :=
  ⟨rfl, ⟨by decide, by decide⟩,
   csv_roundtrip ⟨some ⟨0⟩, [⟨60⟩]⟩ ⟨0⟩ rfl ⟨by decide, by decide⟩⟩

/-- C5 counterexample: the voicing with root C and single pitch C4
contains a pitch whose string form is exactly `C4` at position 0, yet
`index("C4")` returns −1 — a name+octave string key is looked up among
the chord-tone tags of `~self`, never against pitch string forms. -/
theorem index_name_octave_cex :
    Pitch.str ⟨60⟩ = some "C4" ∧
    Voicing.index ⟨some ⟨0⟩, [⟨60⟩]⟩ (VKey.str "C4") = some (-1) := by
  constructor <;> decide

/-- C5 amended: `index` never raises and uses the −1 sentinel for
`Pitch`, `int` and `Chroma` keys (first match by value, value, and
chroma respectively) and for digit-free known chroma-name string keys
(first pitch with that chroma); a string key containing a digit is
resolved against the chord-tone tag list `~self` (position of the tag,
or −1) rather than pitch string forms, and that branch needs `~self` to
be defined (a root); an unknown digit-free name raises `KeyError`. -/
theorem voicing_index_amended (v : Voicing) :
    (∀ p : Pitch, ∃ n, v.index (.pitch p) = some n ∧
        FirstIndexSpec (fun q => q.value == p.value) v.pitches n) ∧
    (∀ m : Int, ∃ n, v.index (.int m) = some n ∧
        FirstIndexSpec (fun q => q.value == m) v.pitches n) ∧
    (∀ c : Chroma, ∃ n, v.index (.chroma c) = some n ∧
        FirstIndexSpec (fun q => q.offset == c.offset) v.pitches n) ∧
    (∀ (s : String) (off : Int), s.data.any Char.isDigit = false →
        OFFSET_OF s = some off →
        ∃ n, v.index (.str s) = some n ∧
          FirstIndexSpec (fun q => q.offset == off) v.pitches n) ∧
    (∀ (s : String) (tags : List String), s.data.any Char.isDigit = true →
        v.inv = some tags →
        ∃ n, v.index (.str s) = some n ∧
          ((s ∈ tags ∧ FirstIndexSpec (fun t => t == s) tags n) ∨
           (s ∉ tags ∧ n = -1))) := by
  refine ⟨?_, ?_, ?_, ?_, ?_⟩
  · intro p
    exact ⟨_, rfl, pyIndexSent_spec _ _⟩
  · intro m
    exact ⟨_, rfl, pyIndexSent_spec _ _⟩
  · intro c
    exact ⟨_, rfl, pyIndexSent_spec _ _⟩
  · intro s off hdig hoff
    refine ⟨pyIndexSent (keyEqPitch (.chroma ⟨off⟩)) v.pitches, ?_,
      pyIndexSent_spec _ _⟩
    simp only [Voicing.index]
    rw [if_neg (by simp [hdig]), hoff]
  · intro s tags hdig hinv
    have hidx : Voicing.index v (.str s) =
        (if s ∈ tags then some (pyIndexSent (fun t => t == s) tags) else some (-1)) := by
      simp only [Voicing.index]
      rw [if_pos (by simp [hdig]), hinv]
    rw [hidx]
    by_cases hmem : s ∈ tags
    · rw [if_pos hmem]
      exact ⟨_, rfl, Or.inl ⟨hmem, pyIndexSent_spec _ _⟩⟩
    · rw [if_neg hmem]
      exact ⟨-1, rfl, Or.inr ⟨hmem, rfl⟩⟩

/-- Witness for C5: the chroma-name key `E` and the digit-bearing key
`1` on the voicing with root C and pitches C4, E4. -/
theorem voicing_index_amended_witness :
    (∃ n, Voicing.index ⟨some ⟨0⟩, [⟨60⟩, ⟨64⟩]⟩ (VKey.str "E") = some n ∧
      FirstIndexSpec (fun q => q.offset == (4 : Int))
        (Voicing.mk (some ⟨0⟩) [⟨60⟩, ⟨64⟩]).pitches n) ∧
    (∃ n, Voicing.index ⟨some ⟨0⟩, [⟨60⟩, ⟨64⟩]⟩ (VKey.str "1") = some n ∧
      (("1" ∈ ["1", "maj3"] ∧
          FirstIndexSpec (fun t => t == "1") ["1", "maj3"] n) ∨
       ("1" ∉ ["1", "maj3"] ∧ n = -1))) :=
  ⟨(voicing_index_amended ⟨some ⟨0⟩, [⟨60⟩, ⟨64⟩]⟩).2.2.2.1 "E" 4
      (by decide) (by decide),
   (voicing_index_amended ⟨some ⟨0⟩, [⟨60⟩, ⟨64⟩]⟩).2.2.2.2 "1" ["1", "maj3"]
      (by decide) (by decide)⟩

/-- C6: removing a single absent pitch is a no-op, but removing a list
that contains more copies of a value than the voicing holds raises
`ValueError` (the membership guard consults the receiver, not the
evolving copy), so removal is not total. -/
theorem sub_raises_on_duplicate_copies :
    Voicing.sub ⟨some ⟨0⟩, [⟨60⟩]⟩ (.pitch ⟨64⟩) = some ⟨some ⟨0⟩, [⟨60⟩]⟩ ∧
    Voicing.sub ⟨some ⟨0⟩, [⟨60⟩]⟩ (.list [⟨60⟩, ⟨60⟩]) = none := by
  constructor <;> decide

end PyVoicing
